import Mathlib

/-!
Verification of the layered configuration resolution engine of the
color-scheme-generator repository (package `color_scheme_settings`).

The Python sources are shallowly embedded:
* Python dicts (string keys, observable insertion order) become
  association lists `List (String × RawValue)`; `getKey` is `d[k]` /
  `k in d`, `setKey` is `d[k] = v` (replace in place when the key is
  present, append otherwise — exactly a Python dict assignment).
* TOML / JSON style values become the inductive `RawValue`.  Python
  floats such as `1.3` are represented as exact rationals: resolution
  and merging never compute with them, they are only carried around.
* Fallible code returns `Except`; file loading outcomes are an
  explicit `LoadResult` input.
-/

inductive RawValue where
  | str : String → RawValue
  | int : Int → RawValue
  | rat : Rat → RawValue
  | boolV : Bool → RawValue
  | list : List RawValue → RawValue
  | dict : List (String × RawValue) → RawValue

abbrev RawDict := List (String × RawValue)

/-- Python `d[k]` (`none` = `k not in d`) on a dict embedded as an association list. -/
def getKey {α : Type} : List (String × α) → String → Option α
  | [], _ => none
  | kv :: rest, k => if kv.1 = k then some kv.2 else getKey rest k

/-- Python `d[k] = v`: replaces the value in place when `k` is present
(keeping its position, as Python dicts do), appends otherwise. -/
def setKey {α : Type} : List (String × α) → String → α → List (String × α)
  | [], k, v => [(k, v)]
  | kv :: rest, k, v => if kv.1 = k then (k, v) :: rest else kv :: setKey rest k v

/-- Well-formedness of an embedded value: every dict reachable through
dict values has pairwise distinct keys (always true of a list that
embeds an actual Python dict).  Lists are unconstrained: none of the
embedded operations merge inside lists. -/
def wfv : RawValue → Bool
  | RawValue.dict [] => true
  | RawValue.dict ((k, v) :: rest) =>
      wfv v && wfv (RawValue.dict rest) && !(rest.any (fun kv2 => kv2.1 = k))
  | _ => true
termination_by v => sizeOf v
decreasing_by all_goals (simp_wf; try omega)

/-- Well-formedness of an embedded dict, see `wfv`. -/
def wfd (d : RawDict) : Bool := wfv (RawValue.dict d)

/-! ## merger.py -/

/-- The `deep_merge` from `color_scheme_settings/merger.py`:

    result = base.copy()
    for key, value in override.items():
        if key in result and isinstance(result[key], dict) and isinstance(value, dict):
            result[key] = deep_merge(result[key], value)
        else:
            result[key] = value
    return result
-/
def deep_merge : RawDict → RawDict → RawDict
  | base, [] => base
  | base, (k, RawValue.dict od) :: rest =>
    (match getKey base k with
     | some (RawValue.dict bd) => deep_merge (setKey base k (RawValue.dict (deep_merge bd od))) rest
     | _ => deep_merge (setKey base k (RawValue.dict od)) rest)
  | base, (k, v) :: rest => deep_merge (setKey base k v) rest
termination_by _ override => sizeOf override
decreasing_by all_goals (simp_wf; try omega)

/-! ## transforms.py -/

/-- Python `str.lower()` (character-wise). -/
def strLower (s : String) : String := ⟨s.data.map Char.toLower⟩

/-- The accumulator loop of `convert_keys_to_lowercase`:

    result = {}
    for key, value in data.items():
        if isinstance(value, dict):
            result[key.lower()] = convert_keys_to_lowercase(value)
        else:
            result[key.lower()] = value
    return result
-/
def lowerAcc : RawDict → RawDict → RawDict
  | acc, [] => acc
  | acc, (k, RawValue.dict d2) :: rest =>
      lowerAcc (setKey acc (strLower k) (RawValue.dict (lowerAcc [] d2))) rest
  | acc, (k, v) :: rest => lowerAcc (setKey acc (strLower k) v) rest
termination_by _ l => sizeOf l
decreasing_by all_goals (simp_wf; try omega)

/-- The `convert_keys_to_lowercase` from `color_scheme_settings/transforms.py`. -/
def convert_keys_to_lowercase (data : RawDict) : RawDict := lowerAcc [] data

/-- ASCII `\w` of Python's `re` with `re.ASCII` (used by `posixpath.expandvars`). -/
def isWordChar (c : Char) : Bool :=
  (decide ('a' ≤ c) && decide (c ≤ 'z')) || (decide ('A' ≤ c) && decide (c ≤ 'Z')) ||
  (decide ('0' ≤ c) && decide (c ≤ '9')) || c == '_'

/-- Longest `\w*` run at the head of the character list. -/
def wordTake : List Char → List Char
  | [] => []
  | c :: cs => if isWordChar c then c :: wordTake cs else []

/-- What remains after `wordTake`. -/
def wordDrop : List Char → List Char
  | [] => []
  | c :: cs => if isWordChar c then wordDrop cs else c :: cs

theorem wordDrop_length_le : ∀ l : List Char, (wordDrop l).length ≤ l.length := by
  intro l
  induction l with
  | nil => simp [wordDrop]
  | cons c cs ih =>
      by_cases h : isWordChar c = true
      · simp [wordDrop, h]; omega
      · simp [wordDrop, h]

theorem wordTake_append_wordDrop : ∀ l : List Char, wordTake l ++ wordDrop l = l := by
  intro l
  induction l with
  | nil => simp [wordTake, wordDrop]
  | cons c cs ih =>
      by_cases h : isWordChar c = true
      · simp [wordTake, wordDrop, h, ih]
      · simp [wordTake, wordDrop, h]

/-- Content of a `${...}` group: the characters before the first `}`
and the characters after it (`none` when `}` never occurs). -/
def splitBrace : List Char → Option (List Char × List Char)
  | [] => none
  | c :: cs =>
      if c = '}' then some ([], cs)
      else match splitBrace cs with
        | some (n, r) => some (c :: n, r)
        | none => none

theorem splitBrace_length : ∀ (l n r : List Char), splitBrace l = some (n, r) →
    n.length + r.length + 1 = l.length := by
  intro l
  induction l with
  | nil => intro n r h; simp [splitBrace] at h
  | cons c cs ih =>
      intro n r h
      by_cases hc : c = '}'
      · simp [splitBrace, hc] at h
        obtain ⟨h1, h2⟩ := h
        subst h1; subst h2; simp
      · simp [splitBrace, hc] at h
        rcases hsb : splitBrace cs with _ | ⟨n2, r2⟩
        · rw [hsb] at h; simp at h
        · rw [hsb] at h; simp at h
          obtain ⟨h1, h2⟩ := h
          have := ih n2 r2 hsb
          subst h1; subst h2; simp; omega

theorem splitBrace_append : ∀ (l n r : List Char), splitBrace l = some (n, r) →
    l = n ++ '}' :: r := by
  intro l
  induction l with
  | nil => intro n r h; simp [splitBrace] at h
  | cons c cs ih =>
      intro n r h
      by_cases hc : c = '}'
      · simp [splitBrace, hc] at h
        obtain ⟨h1, h2⟩ := h
        subst h1; subst h2; simp [hc]
      · simp [splitBrace, hc] at h
        rcases hsb : splitBrace cs with _ | ⟨n2, r2⟩
        · rw [hsb] at h; simp at h
        · rw [hsb] at h; simp at h
          obtain ⟨h1, h2⟩ := h
          subst h1; subst h2
          simp [ih n2 r2 hsb]

/-- The `posixpath.expandvars` (the Python stdlib function called by
`resolve_environment_variables`), on character lists.  Scans left to
right for `$(\w+|\{[^}]*\})`; a defined variable is substituted (the
substituted text is not rescanned), an undefined one is left as
literal text. -/
def expandAux (env : String → Option String) : List Char → List Char
  | [] => []
  | c :: cs =>
      if c = '$' then
        match cs with
        | '{' :: cs2 =>
          (match hsb : splitBrace cs2 with
          | some (name, after) =>
              (match env (String.mk name) with
              | some v => v.data ++ expandAux env after
              | none => '$' :: '{' :: (name ++ '}' :: expandAux env after))
          | none => '$' :: '{' :: expandAux env cs2)
        | cs3 =>
          if wordTake cs3 = [] then c :: expandAux env cs3
          else match env (String.mk (wordTake cs3)) with
            | some v => v.data ++ expandAux env (wordDrop cs3)
            | none => c :: (wordTake cs3 ++ expandAux env (wordDrop cs3))
      else c :: expandAux env cs
termination_by l => l.length
decreasing_by
  all_goals simp_wf
  all_goals first
    | omega
    | (have h9 := splitBrace_length _ _ _ hsb
       omega)
    | (have h9 := wordDrop_length_le cs3
       omega)

/-- The `os.path.expandvars` on strings, parameterised by the process environment. -/
def expandvars (env : String → Option String) (s : String) : String :=
  ⟨expandAux env s.data⟩

/-- The inner `_resolve` of `resolve_environment_variables` from
`color_scheme_settings/transforms.py`: strings are passed through
`os.path.expandvars`, dicts and lists are walked recursively, any
other value passes through unchanged. -/
def resolveV (env : String → Option String) : RawValue → RawValue
  | RawValue.str s => RawValue.str (expandvars env s)
  | RawValue.dict [] => RawValue.dict []
  | RawValue.dict ((k, v) :: rest) =>
      (match resolveV env (RawValue.dict rest) with
      | RawValue.dict rest2 => RawValue.dict ((k, resolveV env v) :: rest2)
      | other => other)
  | RawValue.list [] => RawValue.list []
  | RawValue.list (v :: rest) =>
      (match resolveV env (RawValue.list rest) with
      | RawValue.list rest2 => RawValue.list (resolveV env v :: rest2)
      | other => other)
  | v => v
termination_by v => sizeOf v
decreasing_by all_goals (simp_wf; try omega)

/-- The `resolve_environment_variables` from `color_scheme_settings/transforms.py`. -/
def resolve_environment_variables (env : String → Option String) (data : RawDict) : RawValue :=
  resolveV env (RawValue.dict data)

/-! ## overrides.py -/

/-- The `SettingsOverrideError(key=...)` from `color_scheme_settings/errors.py`. -/
structure SettingsOverrideError where
  key : String
deriving DecidableEq

/-- Python `s.split(".")` on character lists (splits at every `'.'`,
keeping empty segments). -/
def splitOnDotChars : List Char → List (List Char)
  | [] => [[]]
  | c :: rest =>
      match splitOnDotChars rest with
      | [] => [[]]
      | seg :: segs => if c = '.' then [] :: seg :: segs else (c :: seg) :: segs

/-- Python `key.split(".")`. -/
def splitOnDot (s : String) : List String := (splitOnDotChars s.data).map (fun l => ⟨l⟩)

/-- One override of `apply_overrides` from `color_scheme_settings/overrides.py`:

    parts = dotted_key.split(".")
    target = config_dict
    for segment in parts[:-1]:
        if not isinstance(target, dict) or segment not in target:
            raise SettingsOverrideError(key=dotted_key)
        target = target[segment]
    leaf = parts[-1]
    if not isinstance(target, dict) or leaf not in target:
        raise SettingsOverrideError(key=dotted_key)
    target[leaf] = value

(the in-place mutation of the nested dict becomes a functional path update). -/
def setDotted (dotted_key : String) : RawDict → List String → RawValue →
    Except SettingsOverrideError RawDict
  | d, [leaf], v =>
      if (getKey d leaf).isSome then Except.ok (setKey d leaf v)
      else Except.error ⟨dotted_key⟩
  | d, seg :: rest, v =>
      (match getKey d seg with
      | some (RawValue.dict sub) =>
          (setDotted dotted_key sub rest v).map (fun s2 => setKey d seg (RawValue.dict s2))
      | _ => Except.error ⟨dotted_key⟩)
  | _, [], _ => Except.error ⟨dotted_key⟩

/-- The override loop of `apply_overrides`: each `(dotted_key, value)`
pair is applied in order to the (evolving) serialized config dict;
the first failing path aborts with `SettingsOverrideError`. -/
def applyAll : RawDict → List (String × RawValue) → Except SettingsOverrideError RawDict
  | d, [] => Except.ok d
  | d, (k, v) :: rest =>
      match setDotted k d (splitOnDot k) v with
      | Except.ok d2 => applyAll d2 rest
      | Except.error e => Except.error e

/-- The `apply_overrides` from `color_scheme_settings/overrides.py`,
parameterised by the Pydantic model hooks `model_dump` /
`model_validate` (external library code). -/
def apply_overrides {Cfg : Type} (model_dump : Cfg → RawDict) (model_validate : RawDict → Cfg)
    (config : Cfg) (overrides : List (String × RawValue)) : Except SettingsOverrideError Cfg :=
  match overrides with
  | [] => Except.ok config
  | _ => (applyAll (model_dump config) overrides).map model_validate

/-- Whether a dot-path (as segment list) resolves inside a dict:
every intermediate segment hits a nested dict and the leaf key exists. -/
def existsDotted : RawDict → List String → Bool
  | d, [leaf] => (getKey d leaf).isSome
  | d, seg :: rest =>
      (match getKey d seg with
      | some (RawValue.dict sub) => existsDotted sub rest
      | _ => false)
  | _, [] => false

/-! ## registry.py -/

/-- The `SchemaEntry` from `color_scheme_settings/registry.py`; the Pydantic
model class is an opaque type parameter, the defaults file path a string. -/
structure SchemaEntry (Model : Type) where
  nspace : String
  model : Model
  defaults_file : String

/-- The `SettingsRegistryError(namespace=..., reason=...)` from `color_scheme_settings/errors.py`. -/
structure SettingsRegistryError where
  nspace : String
  reason : String
deriving DecidableEq

/-- The `SchemaRegistry.register` from `color_scheme_settings/registry.py`:
raises `SettingsRegistryError` when the namespace is already present,
otherwise appends the new entry to `_entries`.  The class-level dict
`_entries` is threaded explicitly as state; on error the state is the
untouched input (the Python `raise` happens before any mutation). -/
def register {Model : Type} (entries : List (String × SchemaEntry Model)) (nspace : String)
    (model : Model) (defaults_file : String) :
    Except SettingsRegistryError (List (String × SchemaEntry Model)) :=
  if (getKey entries nspace).isSome then
    Except.error ⟨nspace, "namespace already registered"⟩
  else
    Except.ok (entries ++ [(nspace, ⟨nspace, model, defaults_file⟩)])

/-- The `SchemaRegistry.all_namespaces`. -/
def all_namespaces {Model : Type} (entries : List (String × SchemaEntry Model)) : List String :=
  entries.map Prod.fst

/-! ## models.py -/

/-- The `ConfigSource` enum. -/
inductive ConfigSource where
  | CLI
  | ENV
  | USER_CONFIG
  | PROJECT_CONFIG
  | PACKAGE_DEFAULT
deriving DecidableEq

/-- The `WarningLevel` enum. -/
inductive WarningLevel where
  | INFO
  | WARNING
  | ERROR
deriving DecidableEq

/-- The `Warning` dataclass. -/
structure Warning where
  level : WarningLevel
  message : String
  detail : String
  action : String

/-- The `ResolvedValue` dataclass.  `value` is an `Option` because the
final fallback branch of `_resolve_setting` stores `default_value`,
which may be Python `None`. -/
structure ResolvedValue where
  value : Option RawValue
  source : ConfigSource
  source_detail : String
  overrides : List (ConfigSource × RawValue)

/-! ## resolver.py -/

/-- Python `f"{prefix}.{key}" if prefix else key`. -/
def fullKey (pre k : String) : String := if pre = "" then k else pre ++ "." ++ k

/-- The `ConfigResolver._collect_keys`: all dot-notation paths of non-dict
leaves of a nested dict. -/
def collect_keys : RawDict → String → List String
  | [], _ => []
  | (k, RawValue.dict d2) :: rest, pre =>
      collect_keys d2 (fullKey pre k) ++ collect_keys rest pre
  | (k, _) :: rest, pre => fullKey pre k :: collect_keys rest pre
termination_by d _ => sizeOf d
decreasing_by all_goals (simp_wf; try omega)

/-- Python `current != {}` is false exactly for the empty dict. -/
def isEmptyDict : RawValue → Bool
  | RawValue.dict [] => true
  | _ => false

/-- The walking loop of `ConfigResolver._get_value`:

    for part in parts:
        if isinstance(current, dict) and part in current:
            current = current[part]
        else:
            return None
-/
def walkParts : RawValue → List String → Option RawValue
  | cur, [] => some cur
  | RawValue.dict d, p :: rest =>
      (match getKey d p with
      | some v => walkParts v rest
      | none => none)
  | _, _ :: _ => none

/-- The `ConfigResolver._get_value`: dot-notation lookup; empty-dict
results count as absent (`return current if current != {} else None`). -/
def get_value (config : RawDict) (key : String) : Option RawValue :=
  match walkParts (RawValue.dict config) (splitOnDot key) with
  | some v => if isEmptyDict v then none else some v
  | none => none

/-- Python `key.replace("_", "-")`. -/
def underscoreToDash (s : String) : String :=
  ⟨s.data.map (fun c => if c = '_' then '-' else c)⟩

/-- Python `key.upper()` (character-wise). -/
def pyUpper (s : String) : String := ⟨s.data.map Char.toUpper⟩

/-- Python `s.replace(".", "__")`. -/
def dotToDoubleUnderscore (s : String) : String :=
  ⟨s.data.foldr (fun c acc => if c = '.' then '_' :: '_' :: acc else c :: acc) []⟩

/-- The `overrides.append((source, value))` guarded by `if value is not None`. -/
def optPair (s : ConfigSource) : Option RawValue → List (ConfigSource × RawValue)
  | some v => [(s, v)]
  | none => []

/-- The `ConfigResolver._resolve_setting`: fixed-precedence resolution of a
single key, recording every overridden lower-precedence value. -/
def resolve_setting (package_name key : String)
    (cli_value env_value user_value project_value default_value : Option RawValue) :
    ResolvedValue :=
  match cli_value with
  | some cv =>
      { value := some cv
        source := ConfigSource.CLI
        source_detail := "--" ++ underscoreToDash key
        overrides := optPair ConfigSource.ENV env_value ++
          optPair ConfigSource.USER_CONFIG user_value ++
          optPair ConfigSource.PROJECT_CONFIG project_value ++
          optPair ConfigSource.PACKAGE_DEFAULT default_value }
  | none =>
  match env_value with
  | some ev =>
      { value := some ev
        source := ConfigSource.ENV
        source_detail := "COLORSCHEME_" ++ dotToDoubleUnderscore (pyUpper key)
        overrides := optPair ConfigSource.USER_CONFIG user_value ++
          optPair ConfigSource.PROJECT_CONFIG project_value ++
          optPair ConfigSource.PACKAGE_DEFAULT default_value }
  | none =>
  match user_value with
  | some uv =>
      { value := some uv
        source := ConfigSource.USER_CONFIG
        source_detail := "~/.config/" ++ package_name ++ "/settings.toml"
        overrides := optPair ConfigSource.PROJECT_CONFIG project_value ++
          optPair ConfigSource.PACKAGE_DEFAULT default_value }
  | none =>
  match project_value with
  | some pv =>
      { value := some pv
        source := ConfigSource.PROJECT_CONFIG
        source_detail := "./settings.toml"
        overrides := optPair ConfigSource.PACKAGE_DEFAULT default_value }
  | none =>
      { value := default_value
        source := ConfigSource.PACKAGE_DEFAULT
        source_detail := "Package built-in default"
        overrides := [] }

/-- Removes duplicates from a key list (keeping the last occurrence). -/
def dedupKeys : List String → List String
  | [] => []
  | k :: rest => if k ∈ rest then dedupKeys rest else k :: dedupKeys rest

/-- The `all_keys` set of `ConfigResolver._apply_precedence` (a Python
set; embedded as a duplicate-free list, order immaterial). -/
def all_keys (cli_args env_vars user_config project_config defaults : RawDict) : List String :=
  dedupKeys (collect_keys cli_args "" ++ collect_keys env_vars "" ++ collect_keys user_config "" ++
    collect_keys project_config "" ++ collect_keys defaults "")

/-- The `ConfigResolver._apply_precedence`: resolves every collected key
through `_resolve_setting`; the returned `ResolvedConfig._values` dict
is embedded as an association list. -/
def apply_precedence (package_name : String)
    (cli_args env_vars user_config project_config defaults : RawDict) :
    List (String × ResolvedValue) :=
  (all_keys cli_args env_vars user_config project_config defaults).map (fun k =>
    (k, resolve_setting package_name k (get_value cli_args k) (get_value env_vars k)
      (get_value user_config k) (get_value project_config k) (get_value defaults k)))

/-- Outcome of reading + TOML-parsing a settings file (the file system
and `tomllib` are external, so the outcome is an explicit input). -/
inductive LoadResult where
  | missing
  | malformed (err : String)
  | ok (d : RawDict)

/-- Common shape of `ConfigResolver._load_project_config` /
`_load_user_config`: a missing file yields no config and no warning, a
parse failure yields no config plus one WARNING-level `Warning`
naming the file, a parsed file yields its dict. -/
def load_file_config (message path : String) : LoadResult → Option RawDict × List Warning
  | LoadResult.missing => (none, [])
  | LoadResult.malformed e =>
      (none, [{ level := WarningLevel.WARNING, message := message,
                detail := "File: " ++ path, action := "Error: " ++ e }])
  | LoadResult.ok d => (some d, [])

/-- The `ConfigResolver.resolve`: package defaults are
`_load_package_defaults()` (which returns `{}`), project and user
configs come from the two loaders above (`None` becomes `{}` in
`_apply_precedence`), and the accumulated `self.warnings` list is
returned alongside.  `_collect_env_vars` reads the process
environment; its already-collected result is the `env_vars` input. -/
def resolve (package_name project_path user_path : String)
    (cli_args env_vars : RawDict) (project user : LoadResult) :
    List (String × ResolvedValue) × List Warning :=
  let defaults : RawDict := []
  let pc := load_file_config "Failed to load project config" project_path project
  let uc := load_file_config "Failed to load user config" user_path user
  (apply_precedence package_name cli_args env_vars (uc.1.getD []) (pc.1.getD []) defaults,
   pc.2 ++ uc.2)

/-! ## Helper notions for the statements -/

/-- Descending precedence order of the five sources. -/
def precList : List ConfigSource :=
  [ConfigSource.CLI, ConfigSource.ENV, ConfigSource.USER_CONFIG,
   ConfigSource.PROJECT_CONFIG, ConfigSource.PACKAGE_DEFAULT]

/-- Position in the precedence order (0 = highest). -/
def precIdx : ConfigSource → Nat
  | ConfigSource.CLI => 0
  | ConfigSource.ENV => 1
  | ConfigSource.USER_CONFIG => 2
  | ConfigSource.PROJECT_CONFIG => 3
  | ConfigSource.PACKAGE_DEFAULT => 4

/-- The value each source holds for the key under resolution. -/
def sourceVal (cli_value env_value user_value project_value default_value : Option RawValue) :
    ConfigSource → Option RawValue
  | ConfigSource.CLI => cli_value
  | ConfigSource.ENV => env_value
  | ConfigSource.USER_CONFIG => user_value
  | ConfigSource.PROJECT_CONFIG => project_value
  | ConfigSource.PACKAGE_DEFAULT => default_value

/-- A key a Python dict could realistically hold for dot-path
addressing: non-empty and free of `'.'`. -/
def dotFreeKey (k : String) : Bool := !k.isEmpty && k.data.all (fun c => c != '.')

/-- The `cleanv v`: every dict reachable through dict values has pairwise
distinct keys that are non-empty and dot-free. -/
def cleanv : RawValue → Bool
  | RawValue.dict [] => true
  | RawValue.dict ((k, v) :: rest) =>
      dotFreeKey k && cleanv v && cleanv (RawValue.dict rest) &&
        !(rest.any (fun kv2 => kv2.1 = k))
  | _ => true
termination_by v => sizeOf v
decreasing_by all_goals (simp_wf; try omega)

/-- The `cleand d`: see `cleanv`. -/
def cleand (d : RawDict) : Bool := cleanv (RawValue.dict d)

/-- No two keys of any dict (reachable through dict values) collapse
to the same string under lower-casing. -/
def lowerNoCollide : RawValue → Bool
  | RawValue.dict [] => true
  | RawValue.dict ((k, v) :: rest) =>
      lowerNoCollide v && lowerNoCollide (RawValue.dict rest) &&
        !(rest.any (fun kv2 => strLower kv2.1 = strLower k))
  | _ => true
termination_by v => sizeOf v
decreasing_by all_goals (simp_wf; try omega)

/-- The amended key-case normalization rule, written from the spec's
words: lower-case every mapping key reachable through nested mappings,
leave every value — including strings, lists, and any mappings inside
lists — unaltered. -/
def lowercaseSpecD : RawDict → RawDict
  | [] => []
  | (k, RawValue.dict d2) :: rest =>
      (strLower k, RawValue.dict (lowercaseSpecD d2)) :: lowercaseSpecD rest
  | (k, v) :: rest => (strLower k, v) :: lowercaseSpecD rest
termination_by d => sizeOf d
decreasing_by all_goals (simp_wf; try omega)

/-- Python-exception semantics of a `register` call: the `_entries`
state after the call (unchanged when the call raised). -/
def registerState {Model : Type} (entries : List (String × SchemaEntry Model)) (nspace : String)
    (model : Model) (defaults_file : String) : List (String × SchemaEntry Model) :=
  match register entries nspace model defaults_file with
  | Except.ok e2 => e2
  | Except.error _ => entries

/-- C2: with package default `saturation_adjustment = 1.0`, project
`1.3` and user `1.5` (and nothing from CLI or environment), precedence
resolution yields the value `1.5` attributed to `USER_CONFIG`, with
overrides `[(PROJECT_CONFIG, 1.3), (PACKAGE_DEFAULT, 1.0)]` in that
order. -/
theorem resolver_c2_three_layer_chain :
    apply_precedence "color-scheme" [] []
      [("saturation_adjustment", RawValue.rat (3/2))]
      [("saturation_adjustment", RawValue.rat (13/10))]
      [("saturation_adjustment", RawValue.rat 1)] =
      [("saturation_adjustment",
        { value := some (RawValue.rat (3/2))
          source := ConfigSource.USER_CONFIG
          source_detail := "~/.config/color-scheme/settings.toml"
          overrides := [(ConfigSource.PROJECT_CONFIG, RawValue.rat (13/10)),
                        (ConfigSource.PACKAGE_DEFAULT, RawValue.rat 1)] })] := by
  simp [apply_precedence, all_keys, dedupKeys, collect_keys, fullKey, get_value,
    show splitOnDot "saturation_adjustment" = ["saturation_adjustment"] from rfl,
    walkParts, getKey, isEmptyDict, resolve_setting, optPair]

/-- C10: two keys that differ only by case ("Key" and "KEY") collapse
under key-case normalization into the single lowercase key, keeping
the value of the last such key in iteration order and silently
discarding the earlier value; the result has strictly fewer keys. -/
theorem transforms_c10_case_collision :
    convert_keys_to_lowercase [("Key", RawValue.int 1), ("KEY", RawValue.int 2)] =
      [("key", RawValue.int 2)] ∧
    ([("key", RawValue.int 2)] : RawDict).length <
      ([("Key", RawValue.int 1), ("KEY", RawValue.int 2)] : RawDict).length := by
  constructor
  · simp [convert_keys_to_lowercase, lowerAcc, setKey,
      show strLower "Key" = "key" from rfl, show strLower "KEY" = "key" from rfl]
  · simp

/-- C8: registering an already-registered namespace raises
`SettingsRegistryError` and leaves the registry's namespace set (and
entries) exactly as before the call. -/
theorem registry_c8_duplicate_registration {Model : Type}
    (entries : List (String × SchemaEntry Model)) (nspace : String)
    (model : Model) (defaults_file : String)
    (h : (getKey entries nspace).isSome = true) :
    register entries nspace model defaults_file =
      Except.error ⟨nspace, "namespace already registered"⟩ ∧
    registerState entries nspace model defaults_file = entries := by
  refine ⟨?_, ?_⟩ <;> simp [register, registerState, h]

/-- Witness for C8 at a concrete one-entry registry. -/
theorem registry_c8_witness :
    (getKey [("core", (⟨"core", (), "defaults.toml"⟩ : SchemaEntry Unit))] "core").isSome = true ∧
    (register [("core", (⟨"core", (), "defaults.toml"⟩ : SchemaEntry Unit))] "core" ()
        "other.toml" = Except.error ⟨"core", "namespace already registered"⟩ ∧
      registerState [("core", (⟨"core", (), "defaults.toml"⟩ : SchemaEntry Unit))] "core" ()
        "other.toml" = [("core", ⟨"core", (), "defaults.toml"⟩)]) :=
  ⟨by decide, registry_c8_duplicate_registration _ _ _ _ (by decide)⟩

/-- C6 counterexample: `convert_keys_to_lowercase` does not descend
into lists, so the key `"B"` of a mapping inside a list keeps its
case, contradicting the claim that keys of mappings inside lists are
lower-cased. -/
theorem transforms_c6_counterexample :
    convert_keys_to_lowercase [("A", RawValue.list [RawValue.dict [("B", RawValue.int 1)]])] =
      [("a", RawValue.list [RawValue.dict [("B", RawValue.int 1)]])] ∧
    RawValue.list [RawValue.dict [("B", RawValue.int 1)]] ≠
      RawValue.list [RawValue.dict [("b", RawValue.int 1)]] := by
  constructor
  · simp [convert_keys_to_lowercase, lowerAcc, setKey, show strLower "A" = "a" from rfl]
  · simp

/-- C1 counterexample: the key `"a.b"` is present (as a literal dotted
key) in the CLI source, yet resolution attributes it to
`PACKAGE_DEFAULT` with a null value and no overrides, because
`_get_value` re-splits the collected key on `"."` and the flat CLI
dict has no `"a"` entry. -/
theorem resolver_c1_counterexample :
    apply_precedence "p" [("a.b", RawValue.int 1)] [] [] [] [] =
      [("a.b", { value := none, source := ConfigSource.PACKAGE_DEFAULT,
                 source_detail := "Package built-in default", overrides := [] })] ∧
    ConfigSource.PACKAGE_DEFAULT ≠ ConfigSource.CLI := by
  constructor
  · simp [apply_precedence, all_keys, dedupKeys, collect_keys, fullKey, get_value,
      show splitOnDot "a.b" = ["a", "b"] from rfl, walkParts, getKey, isEmptyDict,
      resolve_setting]
  · decide

/-! ## Association-list lemmas (Python dict facts) -/

theorem getKey_setKey_self {α : Type} (d : List (String × α)) (k : String) (v : α) :
    getKey (setKey d k v) k = some v := by
  induction d with
  | nil => simp [setKey, getKey]
  | cons kv rest ih =>
      by_cases hk : kv.1 = k
      · simp [setKey, hk, getKey]
      · simp [setKey, hk, getKey, ih]

theorem getKey_setKey_ne {α : Type} (d : List (String × α)) (k k2 : String) (v : α)
    (hne : k2 ≠ k) : getKey (setKey d k v) k2 = getKey d k2 := by
  induction d with
  | nil => simp [setKey, getKey, Ne.symm hne]
  | cons kv rest ih =>
      by_cases hk : kv.1 = k
      · simp [setKey, hk, getKey, Ne.symm hne]
      · simp [setKey, hk, getKey, ih]

theorem getKey_eq_none {α : Type} (d : List (String × α)) (k : String)
    (h : k ∉ d.map Prod.fst) : getKey d k = none := by
  induction d with
  | nil => simp [getKey]
  | cons kv rest ih =>
      simp only [List.map_cons, List.mem_cons] at h
      push_neg at h
      simp [getKey, Ne.symm h.1, ih h.2]

theorem getKey_mem_nodup {α : Type} (d : List (String × α)) (kv : String × α)
    (hnd : (d.map Prod.fst).Nodup) (hm : kv ∈ d) : getKey d kv.1 = some kv.2 := by
  induction d with
  | nil => simp at hm
  | cons hd rest ih =>
      rcases List.mem_cons.mp hm with h | h
      · subst h; simp [getKey]
      · have hne : hd.1 ≠ kv.1 := by
          intro he
          have : kv.1 ∈ rest.map Prod.fst := List.mem_map_of_mem Prod.fst h
          rw [← he] at this
          exact (List.nodup_cons.mp hnd).1 this
        simp [getKey, hne]
        exact ih (List.nodup_cons.mp hnd).2 h

theorem setKey_eq_self {α : Type} (d : List (String × α)) (k : String) (v : α)
    (h : getKey d k = some v) : setKey d k v = d := by
  induction d with
  | nil => simp [getKey] at h
  | cons kv rest ih =>
      obtain ⟨k1, v1⟩ := kv
      by_cases hk : k1 = k
      · subst hk
        simp only [getKey, if_pos] at h
        injection h with h2
        subst h2
        simp [setKey]
      · simp only [getKey, hk, if_neg] at h
        simp [setKey, hk, ih h]

theorem setKey_append {α : Type} (d : List (String × α)) (k : String) (v : α)
    (h : k ∉ d.map Prod.fst) : setKey d k v = d ++ [(k, v)] := by
  induction d with
  | nil => simp [setKey]
  | cons kv rest ih =>
      simp only [List.map_cons, List.mem_cons] at h
      push_neg at h
      simp [setKey, Ne.symm h.1, ih h.2]

/-- The `wfv` unpacked for a dict node. -/
theorem wfv_dict_iff (d : RawDict) : wfv (RawValue.dict d) = true ↔
    (d.map Prod.fst).Nodup ∧ ∀ kv ∈ d, wfv kv.2 = true := by
  induction d with
  | nil => simp [wfv]
  | cons kv rest ih =>
      obtain ⟨k, v⟩ := kv
      rw [show wfv (RawValue.dict ((k, v) :: rest)) =
          (wfv v && wfv (RawValue.dict rest) && !(rest.any (fun kv2 => kv2.1 = k))) from by
        simp [wfv]]
      constructor
      · intro h
        rw [Bool.and_eq_true, Bool.and_eq_true] at h
        obtain ⟨⟨hv, hrest⟩, hany⟩ := h
        obtain ⟨hnd, hall⟩ := ih.mp hrest
        refine ⟨List.nodup_cons.mpr ⟨?_, hnd⟩, ?_⟩
        · intro hmem
          obtain ⟨kv2, hm2, he2⟩ := List.mem_map.mp hmem
          have : rest.any (fun kv2 => kv2.1 = k) = true :=
            List.any_eq_true.mpr ⟨kv2, hm2, by simp [he2]⟩
          rw [this] at hany
          simp at hany
        · intro kv2 hm2
          rcases List.mem_cons.mp hm2 with h2 | h2
          · rw [h2]; exact hv
          · exact hall kv2 h2
      · intro hh
        obtain ⟨hnd, hall⟩ := hh
        obtain ⟨hk, hnd2⟩ := List.nodup_cons.mp hnd
        have h1 : wfv v = true := hall (k, v) (List.mem_cons_self _ _)
        have h2 : wfv (RawValue.dict rest) = true :=
          ih.mpr ⟨hnd2, fun kv2 hm2 => hall kv2 (List.mem_cons_of_mem _ hm2)⟩
        have h3 : rest.any (fun kv2 => kv2.1 = k) = false := by
          rw [List.any_eq_false]
          intro kv2 hm2
          simp only [decide_eq_true_eq]
          intro he
          have hmm := List.mem_map_of_mem Prod.fst hm2
          rw [he] at hmm
          exact hk hmm
        rw [h1, h2, h3]
        rfl

/-! ## C3: pointwise characterization of deep_merge -/

/-- The merge rule of the spec, per key: a key mapped to dicts on both
sides is merged recursively; any other key present in the override
(lists included) takes the override value wholesale; keys only in the
base are preserved; keys in neither are absent. -/
def mergeSpec : Option RawValue → Option RawValue → Option RawValue
  | some (RawValue.dict bd), some (RawValue.dict od) =>
      some (RawValue.dict (deep_merge bd od))
  | _, some v => some v
  | some v, none => some v
  | none, none => none

theorem mergeSpec_none_right (b : Option RawValue) : mergeSpec b none = b := by
  rcases b with _ | v
  · rfl
  · cases v <;> rfl

theorem mergeSpec_some_right_nondict (b : Option RawValue) (v : RawValue)
    (hv : ∀ od, v ≠ RawValue.dict od) : mergeSpec b (some v) = some v := by
  rcases b with _ | w
  · cases v <;> rfl
  · cases w <;> cases v <;> first | rfl | exact absurd rfl (hv _)

theorem mergeSpec_some_right_dict (b : Option RawValue) (od : RawDict)
    (hb : ∀ bd, b ≠ some (RawValue.dict bd)) :
    mergeSpec b (some (RawValue.dict od)) = some (RawValue.dict od) := by
  rcases b with _ | w
  · rfl
  · cases w <;> first | rfl | exact absurd rfl (hb _)

theorem deep_merge_nil (base : RawDict) : deep_merge base [] = base := by
  simp [deep_merge]

theorem deep_merge_cons_dict_dict (base : RawDict) (k : String) (od rest bd : RawDict)
    (hb : getKey base k = some (RawValue.dict bd)) :
    deep_merge base ((k, RawValue.dict od) :: rest) =
      deep_merge (setKey base k (RawValue.dict (deep_merge bd od))) rest := by
  simp only [deep_merge, hb]

theorem deep_merge_cons_dict_other (base : RawDict) (k : String) (od rest : RawDict)
    (hb : ∀ bd, getKey base k ≠ some (RawValue.dict bd)) :
    deep_merge base ((k, RawValue.dict od) :: rest) =
      deep_merge (setKey base k (RawValue.dict od)) rest := by
  rcases hg : getKey base k with _ | w
  · simp only [deep_merge, hg]
  · cases w
    case dict bd => exact absurd hg (hb bd)
    all_goals simp only [deep_merge, hg]

theorem deep_merge_cons_nondict (base : RawDict) (k : String) (v : RawValue)
    (rest : RawDict) (hv : ∀ od, v ≠ RawValue.dict od) :
    deep_merge base ((k, v) :: rest) = deep_merge (setKey base k v) rest := by
  cases v
  case dict od => exact absurd rfl (hv od)
  all_goals simp only [deep_merge]

/-- C3: pointwise behaviour of `deep_merge`: for every pair of raw
dicts and every key, the merged dict holds the recursive merge when
both sides hold dicts at that key, the override value wholesale
otherwise (lists included), the base value when only the base holds
the key, and nothing when neither does. -/
theorem merger_c3_deep_merge_pointwise (base ov : RawDict)
    (h : (ov.map Prod.fst).Nodup) (k : String) :
    getKey (deep_merge base ov) k = mergeSpec (getKey base k) (getKey ov k) := by
  induction base, ov using deep_merge.induct generalizing k with
  | case1 base' =>
      rw [deep_merge_nil]
      simp [getKey, mergeSpec_none_right]
  | case2 base' k1 od rest bd hb ih1 ih2 =>
      rw [deep_merge_cons_dict_dict base' k1 od rest bd hb]
      rw [List.map_cons] at h
      have hnd := List.nodup_cons.mp h
      rw [ih2 hnd.2 k]
      by_cases hk : k1 = k
      · subst hk
        rw [getKey_setKey_self, getKey_eq_none rest k1 hnd.1, mergeSpec_none_right]
        simp [getKey, hb, mergeSpec]
      · rw [getKey_setKey_ne base' k1 k _ (Ne.symm hk)]
        simp [getKey, hk]
  | case3 base' k1 od rest hnb ih =>
      rw [deep_merge_cons_dict_other base' k1 od rest (fun bd hbd => hnb bd hbd)]
      rw [List.map_cons] at h
      have hnd := List.nodup_cons.mp h
      rw [ih hnd.2 k]
      by_cases hk : k1 = k
      · subst hk
        rw [getKey_setKey_self, getKey_eq_none rest k1 hnd.1, mergeSpec_none_right]
        simp only [getKey, if_true]
        rw [mergeSpec_some_right_dict _ od (fun bd hbd => hnb bd hbd)]
      · rw [getKey_setKey_ne base' k1 k _ (Ne.symm hk)]
        simp [getKey, hk]
  | case4 base' k1 v rest hnv ih =>
      rw [deep_merge_cons_nondict base' k1 v rest (fun od hod => hnv od hod)]
      rw [List.map_cons] at h
      have hnd := List.nodup_cons.mp h
      rw [ih hnd.2 k]
      by_cases hk : k1 = k
      · subst hk
        rw [getKey_setKey_self, getKey_eq_none rest k1 hnd.1, mergeSpec_none_right]
        simp only [getKey, if_true]
        rw [mergeSpec_some_right_nondict _ v (fun od hod => hnv od hod)]
      · rw [getKey_setKey_ne base' k1 k _ (Ne.symm hk)]
        simp [getKey, hk]

/-- Witness for C3: the list-atomicity example — merging
`{"formats": ["json","css"]}` with `{"formats": ["json"]}` yields the
override list wholesale. -/
theorem merger_c3_witness :
    ((([("formats", RawValue.list [RawValue.str "json"])] : RawDict).map Prod.fst).Nodup ∧
      getKey (deep_merge [("formats", RawValue.list [RawValue.str "json", RawValue.str "css"])]
          [("formats", RawValue.list [RawValue.str "json"])]) "formats" =
        mergeSpec
          (getKey [("formats", RawValue.list [RawValue.str "json", RawValue.str "css"])] "formats")
          (getKey [("formats", RawValue.list [RawValue.str "json"])] "formats")) ∧
    mergeSpec
        (getKey [("formats", RawValue.list [RawValue.str "json", RawValue.str "css"])] "formats")
        (getKey [("formats", RawValue.list [RawValue.str "json"])] "formats") =
      some (RawValue.list [RawValue.str "json"]) :=
  ⟨⟨by simp, merger_c3_deep_merge_pointwise _ _ (by simp) "formats"⟩, by
    simp [getKey, mergeSpec]⟩

/-- Merging an override whose entries the base already contains (with
well-formed values) changes nothing. -/
theorem deep_merge_self_general (base ov : RawDict)
    (hsub : ∀ kv ∈ ov, getKey base kv.1 = some kv.2)
    (hwf : ∀ kv ∈ ov, wfv kv.2 = true) :
    deep_merge base ov = base := by
  induction base, ov using deep_merge.induct with
  | case1 base' => exact deep_merge_nil base'
  | case2 base' k1 od rest bd hb ih1 ih2 =>
      have hget : getKey base' k1 = some (RawValue.dict od) :=
        hsub (k1, RawValue.dict od) (List.mem_cons_self _ _)
      have hbdod : bd = od := by
        have h2 := hb.symm.trans hget
        injection h2 with h3
        injection h3
      subst hbdod
      have hwf1 : wfv (RawValue.dict bd) = true :=
        hwf (k1, RawValue.dict bd) (List.mem_cons_self _ _)
      obtain ⟨hnd, hwfall⟩ := (wfv_dict_iff bd).mp hwf1
      have hmerge : deep_merge bd bd = bd :=
        ih1 (fun kv hm => getKey_mem_nodup bd kv hnd hm) hwfall
      have hset : setKey base' k1 (RawValue.dict bd) = base' :=
        setKey_eq_self base' k1 (RawValue.dict bd) hget
      rw [hmerge, hset] at ih2
      rw [deep_merge_cons_dict_dict base' k1 bd rest bd hb, hmerge, hset]
      exact ih2 (fun kv hm => hsub kv (List.mem_cons_of_mem _ hm))
        (fun kv hm => hwf kv (List.mem_cons_of_mem _ hm))
  | case3 base' k1 od rest hnb ih =>
      have hget : getKey base' k1 = some (RawValue.dict od) :=
        hsub (k1, RawValue.dict od) (List.mem_cons_self _ _)
      exact (hnb od hget).elim
  | case4 base' k1 v rest hnv ih =>
      have hget : getKey base' k1 = some v :=
        hsub (k1, v) (List.mem_cons_self _ _)
      have hset : setKey base' k1 v = base' := setKey_eq_self base' k1 v hget
      rw [hset] at ih
      rw [deep_merge_cons_nondict base' k1 v rest (fun od hod => hnv od hod), hset]
      exact ih (fun kv hm => hsub kv (List.mem_cons_of_mem _ hm))
        (fun kv hm => hwf kv (List.mem_cons_of_mem _ hm))

/-- C9: deep merge is idempotent: `merge(x, x) = x` for every
well-formed raw tree `x`. -/
theorem merger_c9_idempotent (x : RawDict) (h : wfd x = true) : deep_merge x x = x := by
  obtain ⟨hnd, hall⟩ := (wfv_dict_iff x).mp h
  exact deep_merge_self_general x x (fun kv hm => getKey_mem_nodup x kv hnd hm) hall

/-- Witness for C9 at a concrete nested tree. -/
theorem merger_c9_witness :
    wfd [("a", RawValue.dict [("b", RawValue.int 1)]), ("c", RawValue.str "s")] = true ∧
    deep_merge [("a", RawValue.dict [("b", RawValue.int 1)]), ("c", RawValue.str "s")]
        [("a", RawValue.dict [("b", RawValue.int 1)]), ("c", RawValue.str "s")] =
      [("a", RawValue.dict [("b", RawValue.int 1)]), ("c", RawValue.str "s")] :=
  ⟨by simp [wfd, wfv], merger_c9_idempotent _ (by simp [wfd, wfv])⟩

/-- C5: a syntactically invalid project settings file still yields a
resolved config — identical to the one obtained with no project file
at all (the source is treated as absent for every key) — plus exactly
one WARNING-level warning naming the project file; no error is
raised. -/
theorem resolver_c5_malformed_project (package_name project_path user_path e : String)
    (cli_args env_vars : RawDict) (u : Option RawDict) :
    (resolve package_name project_path user_path cli_args env_vars (LoadResult.malformed e)
        (u.elim LoadResult.missing LoadResult.ok)).1 =
      (resolve package_name project_path user_path cli_args env_vars LoadResult.missing
        (u.elim LoadResult.missing LoadResult.ok)).1 ∧
    (resolve package_name project_path user_path cli_args env_vars (LoadResult.malformed e)
        (u.elim LoadResult.missing LoadResult.ok)).2 =
      [{ level := WarningLevel.WARNING, message := "Failed to load project config",
         detail := "File: " ++ project_path, action := "Error: " ++ e }] := by
  rcases u with _ | d <;> simp [resolve, load_file_config]

/-- The `lowerNoCollide` unpacked for a dict node. -/
theorem lowerNoCollide_dict_iff (d : RawDict) : lowerNoCollide (RawValue.dict d) = true ↔
    (d.map (fun kv => strLower kv.1)).Nodup ∧ ∀ kv ∈ d, lowerNoCollide kv.2 = true := by
  induction d with
  | nil => simp [lowerNoCollide]
  | cons kv rest ih =>
      obtain ⟨k, v⟩ := kv
      rw [show lowerNoCollide (RawValue.dict ((k, v) :: rest)) =
          (lowerNoCollide v && lowerNoCollide (RawValue.dict rest) &&
            !(rest.any (fun kv2 => strLower kv2.1 = strLower k))) from by
        simp [lowerNoCollide]]
      constructor
      · intro h
        rw [Bool.and_eq_true, Bool.and_eq_true] at h
        obtain ⟨⟨hv, hrest⟩, hany⟩ := h
        obtain ⟨hnd, hall⟩ := ih.mp hrest
        refine ⟨List.nodup_cons.mpr ⟨?_, hnd⟩, ?_⟩
        · intro hmem
          obtain ⟨kv2, hm2, he2⟩ := List.mem_map.mp hmem
          have : rest.any (fun kv2 => strLower kv2.1 = strLower k) = true :=
            List.any_eq_true.mpr ⟨kv2, hm2, by simp [he2]⟩
          rw [this] at hany
          simp at hany
        · intro kv2 hm2
          rcases List.mem_cons.mp hm2 with h2 | h2
          · rw [h2]; exact hv
          · exact hall kv2 h2
      · intro hh
        obtain ⟨hnd, hall⟩ := hh
        obtain ⟨hk, hnd2⟩ := List.nodup_cons.mp hnd
        have h1 : lowerNoCollide v = true := hall (k, v) (List.mem_cons_self _ _)
        have h2 : lowerNoCollide (RawValue.dict rest) = true :=
          ih.mpr ⟨hnd2, fun kv2 hm2 => hall kv2 (List.mem_cons_of_mem _ hm2)⟩
        have h3 : rest.any (fun kv2 => strLower kv2.1 = strLower k) = false := by
          rw [List.any_eq_false]
          intro kv2 hm2
          simp only [decide_eq_true_eq]
          intro he
          have hmm : strLower kv2.1 ∈ List.map (fun kv => strLower kv.1) rest :=
            List.mem_map_of_mem (fun kv => strLower kv.1) hm2
          rw [he] at hmm
          exact hk hmm
        rw [h1, h2, h3]
        rfl

/-- The accumulator loop of key-case normalization appends its output
to the accumulator when no lowered key collides with the accumulator
or with another key of the same dict. -/
theorem lowerAcc_eq_spec (acc d : RawDict)
    (h1 : lowerNoCollide (RawValue.dict d) = true)
    (h2 : ∀ kv ∈ d, strLower kv.1 ∉ acc.map Prod.fst) :
    lowerAcc acc d = acc ++ lowercaseSpecD d := by
  induction acc, d using lowerAcc.induct with
  | case1 acc' => simp [lowerAcc, lowercaseSpecD]
  | case2 acc' k d2 rest ih1 ih2 =>
      obtain ⟨hnd, hall⟩ := (lowerNoCollide_dict_iff _).mp h1
      rw [List.map_cons] at hnd
      obtain ⟨hk, hnd2⟩ := List.nodup_cons.mp hnd
      have hd2 : lowerNoCollide (RawValue.dict d2) = true :=
        hall (k, RawValue.dict d2) (List.mem_cons_self _ _)
      have hinner : lowerAcc [] d2 = lowercaseSpecD d2 := by
        have := ih1 hd2 (by simp)
        simpa using this
      have hset : setKey acc' (strLower k) (RawValue.dict (lowerAcc [] d2)) =
          acc' ++ [(strLower k, RawValue.dict (lowerAcc [] d2))] :=
        setKey_append _ _ _ (h2 (k, RawValue.dict d2) (List.mem_cons_self _ _))
      have houter := ih2 ((lowerNoCollide_dict_iff _).mpr
        ⟨hnd2, fun kv hm => hall kv (List.mem_cons_of_mem _ hm)⟩) ?_
      · rw [show lowerAcc acc' ((k, RawValue.dict d2) :: rest) =
            lowerAcc (setKey acc' (strLower k) (RawValue.dict (lowerAcc [] d2))) rest from by
          simp [lowerAcc]]
        rw [houter, hset, hinner]
        simp [lowercaseSpecD]
      · intro kv hm
        rw [hset, List.map_append, List.mem_append]
        rintro (hin | hin)
        · exact h2 kv (List.mem_cons_of_mem _ hm) hin
        · simp only [List.map_cons, List.map_nil, List.mem_singleton] at hin
          exact hk (hin ▸ List.mem_map_of_mem (fun kv => strLower kv.1) hm)
  | case3 acc' k v rest hnv ih =>
      obtain ⟨hnd, hall⟩ := (lowerNoCollide_dict_iff _).mp h1
      rw [List.map_cons] at hnd
      obtain ⟨hk, hnd2⟩ := List.nodup_cons.mp hnd
      have hset : setKey acc' (strLower k) v = acc' ++ [(strLower k, v)] :=
        setKey_append _ _ _ (h2 (k, v) (List.mem_cons_self _ _))
      have houter := ih ((lowerNoCollide_dict_iff _).mpr
        ⟨hnd2, fun kv hm => hall kv (List.mem_cons_of_mem _ hm)⟩) ?_
      · rw [show lowerAcc acc' ((k, v) :: rest) = lowerAcc (setKey acc' (strLower k) v) rest from by
          cases v <;> first | exact absurd rfl (hnv _) | simp [lowerAcc]]
        rw [houter, hset]
        rw [show lowercaseSpecD ((k, v) :: rest) = (strLower k, v) :: lowercaseSpecD rest from by
          cases v <;> first | exact absurd rfl (hnv _) | simp [lowercaseSpecD]]
        simp
      · intro kv hm
        rw [hset, List.map_append, List.mem_append]
        rintro (hin | hin)
        · exact h2 kv (List.mem_cons_of_mem _ hm) hin
        · simp only [List.map_cons, List.map_nil, List.mem_singleton] at hin
          exact hk (hin ▸ List.mem_map_of_mem (fun kv => strLower kv.1) hm)

/-- C6 (amended): key-case normalization lower-cases every mapping key
reachable through nested mappings and leaves every value — strings,
lists, and mappings inside lists included — unaltered, provided no two
keys of a mapping collapse to the same lowercase string. -/
theorem transforms_c6_amended (d : RawDict)
    (h : lowerNoCollide (RawValue.dict d) = true) :
    convert_keys_to_lowercase d = lowercaseSpecD d := by
  have := lowerAcc_eq_spec [] d h (by simp)
  simpa [convert_keys_to_lowercase] using this

/-- Witness for the amended C6 at a nested concrete tree. -/
theorem transforms_c6_amended_witness :
    lowerNoCollide (RawValue.dict
        [("Alpha", RawValue.dict [("Beta", RawValue.str "KEEP")]),
         ("Gamma", RawValue.list [RawValue.dict [("Delta", RawValue.int 2)]])]) = true ∧
    convert_keys_to_lowercase
        [("Alpha", RawValue.dict [("Beta", RawValue.str "KEEP")]),
         ("Gamma", RawValue.list [RawValue.dict [("Delta", RawValue.int 2)]])] =
      lowercaseSpecD
        [("Alpha", RawValue.dict [("Beta", RawValue.str "KEEP")]),
         ("Gamma", RawValue.list [RawValue.dict [("Delta", RawValue.int 2)]])] :=
  ⟨by simp [lowerNoCollide, strLower], transforms_c6_amended _ (by simp [lowerNoCollide, strLower])⟩

theorem resolveV_dict (env : String → Option String) (d : RawDict) :
    resolveV env (RawValue.dict d) =
      RawValue.dict (d.map (fun kv => (kv.1, resolveV env kv.2))) := by
  induction d with
  | nil => simp [resolveV]
  | cons kv rest ih =>
      obtain ⟨k, v⟩ := kv
      simp [resolveV, ih]

theorem resolveV_list (env : String → Option String) (l : List RawValue) :
    resolveV env (RawValue.list l) = RawValue.list (l.map (resolveV env)) := by
  induction l with
  | nil => simp [resolveV]
  | cons v rest ih => simp [resolveV, ih]

theorem getKey_map_value {α β : Type} (f : α → β) (d : List (String × α)) (k : String) :
    getKey (d.map (fun kv => (kv.1, f kv.2))) k = (getKey d k).map f := by
  induction d with
  | nil => simp [getKey]
  | cons kv rest ih =>
      by_cases hk : kv.1 = k
      · simp [getKey, hk]
      · simp [getKey, hk, ih]

/-- One step of `expandAux` at a closed `${...}` group whose variable
is defined. -/
theorem expandAux_brace_some_def (env : String → Option String) (cs2 name after : List Char)
    (v : String) (hsb : splitBrace cs2 = some (name, after))
    (hv : env (String.mk name) = some v) :
    expandAux env ('$' :: '{' :: cs2) = v.data ++ expandAux env after := by
  simp only [expandAux, if_true]
  split
  · rename_i name2 after2 heq
    rw [hsb] at heq
    injection heq with h2
    injection h2 with h3 h4
    subst h3
    subst h4
    rw [hv]
  · rename_i heq
    rw [hsb] at heq
    cases heq

/-- One step of `expandAux` at a closed `${...}` group whose variable
is undefined: the whole group is left as literal text. -/
theorem expandAux_brace_none_def (env : String → Option String) (cs2 name after : List Char)
    (hsb : splitBrace cs2 = some (name, after)) (hv : env (String.mk name) = none) :
    expandAux env ('$' :: '{' :: cs2) =
      '$' :: '{' :: (name ++ '}' :: expandAux env after) := by
  simp only [expandAux, if_true]
  split
  · rename_i name2 after2 heq
    rw [hsb] at heq
    injection heq with h2
    injection h2 with h3 h4
    subst h3
    subst h4
    rw [hv]
  · rename_i heq
    rw [hsb] at heq
    cases heq

/-- One step of `expandAux` at an unclosed `${`: scanning resumes
after the brace. -/
theorem expandAux_brace_unclosed (env : String → Option String) (cs2 : List Char)
    (hsb : splitBrace cs2 = none) :
    expandAux env ('$' :: '{' :: cs2) = '$' :: '{' :: expandAux env cs2 := by
  simp only [expandAux, if_true]
  split
  · rename_i name2 after2 heq
    rw [hsb] at heq
    cases heq
  · rfl

/-- One step of `expandAux` at `$` not followed by `{`. -/
theorem expandAux_word_def (env : String → Option String) (c2 : Char) (rest2 : List Char)
    (hc2 : ¬ c2 = '{') :
    expandAux env ('$' :: c2 :: rest2) =
      (if wordTake (c2 :: rest2) = [] then '$' :: expandAux env (c2 :: rest2)
       else match env (String.mk (wordTake (c2 :: rest2))) with
         | some v => v.data ++ expandAux env (wordDrop (c2 :: rest2))
         | none => '$' :: (wordTake (c2 :: rest2) ++ expandAux env (wordDrop (c2 :: rest2)))) := by
  rw [expandAux.eq_def]
  simp [hc2]

/-- One step of `expandAux` at an ordinary character. -/
theorem expandAux_cons_ne (env : String → Option String) (c : Char) (cs : List Char)
    (hc : ¬ c = '$') : expandAux env (c :: cs) = c :: expandAux env cs := by
  rw [expandAux.eq_def]
  simp [hc]

/-- With an environment defining no variable at all, `expandAux` is
the identity: undefined references are left as literal text, never
dropped or emptied, and no error is possible. -/
theorem expandAux_env_none (env : String → Option String) (henv : ∀ n, env n = none) :
    ∀ l, expandAux env l = l := by
  intro l
  refine expandAux.induct env (fun l2 => expandAux env l2 = l2) ?_ ?_ ?_ ?_ ?_ ?_ ?_ ?_ l
  · simp [expandAux]
  · intro cs2 name after hsb v hv ih
    rw [henv] at hv
    cases hv
  · intro cs2 name after hsb hv ih
    rw [expandAux_brace_none_def env cs2 name after hsb (henv _), ih,
      splitBrace_append cs2 name after hsb]
  · intro cs2 hsb ih
    rw [expandAux_brace_unclosed env cs2 hsb, ih]
  · intro cs3 hbr hw ih
    cases cs3 with
    | nil => simp [expandAux, wordTake]
    | cons c2 rest2 =>
        have hc2 : ¬ c2 = '{' := fun h => hbr rest2 (by rw [h])
        rw [expandAux_word_def env c2 rest2 hc2, if_pos hw, ih]
  · intro cs3 hbr hw v hv ih
    rw [henv] at hv
    cases hv
  · intro cs3 hbr hw hv ih
    cases cs3 with
    | nil => exact absurd rfl hw
    | cons c2 rest2 =>
        have hc2 : ¬ c2 = '{' := fun h => hbr rest2 (by rw [h])
        rw [expandAux_word_def env c2 rest2 hc2, if_neg hw, henv _]
        show '$' :: (wordTake (c2 :: rest2) ++ expandAux env (wordDrop (c2 :: rest2))) =
          '$' :: c2 :: rest2
        rw [ih, wordTake_append_wordDrop]
  · intro c cs hc ih
    rw [expandAux_cons_ne env c cs hc, ih]

/-- C7: environment-variable expansion expands `$VAR` references in
every string value (strings inside lists included), leaves non-string
leaves and the container structure unchanged, never raises (it is a
total function), and leaves references to undefined variables as
literal text — in particular, with no variable defined it is the
identity and never deletes or empties a value. -/
theorem transforms_c7_env_expansion :
    (∀ (env : String → Option String) (d : RawDict),
        resolve_environment_variables env d =
          RawValue.dict (d.map (fun kv => (kv.1, resolveV env kv.2)))) ∧
    (∀ (env : String → Option String) (d : RawDict) (k : String),
        getKey (d.map (fun kv => (kv.1, resolveV env kv.2))) k =
          (getKey d k).map (resolveV env)) ∧
    (∀ (env : String → Option String) (l : List RawValue),
        resolveV env (RawValue.list l) = RawValue.list (l.map (resolveV env))) ∧
    (∀ (env : String → Option String) (s : String),
        resolveV env (RawValue.str s) = RawValue.str (expandvars env s)) ∧
    (∀ (env : String → Option String) (n : Int),
        resolveV env (RawValue.int n) = RawValue.int n) ∧
    (∀ (env : String → Option String) (q : Rat),
        resolveV env (RawValue.rat q) = RawValue.rat q) ∧
    (∀ (env : String → Option String) (b : Bool),
        resolveV env (RawValue.boolV b) = RawValue.boolV b) ∧
    (∀ s : String, expandvars (fun _ => none) s = s) ∧
    expandvars (fun n => if n = "HOME" then some "/home/user" else none) "$HOME/docs" =
      "/home/user/docs" ∧
    expandvars (fun n => if n = "HOME" then some "/home/user" else none) "$MISSING/docs" =
      "$MISSING/docs" := by
  refine ⟨?_, ?_, ?_, ?_, ?_, ?_, ?_, ?_, ?_, ?_⟩
  · intro env d
    exact resolveV_dict env d
  · intro env d k
    exact getKey_map_value (resolveV env) d k
  · intro env l
    exact resolveV_list env l
  · intro env s
    simp [resolveV]
  · intro env n
    simp [resolveV]
  · intro env q
    simp [resolveV]
  · intro env b
    simp [resolveV]
  · intro s
    show String.mk (expandAux (fun _ => none) s.data) = s
    rw [expandAux_env_none (fun _ => none) (fun _ => rfl) s.data]
  · simp [expandvars, expandAux, wordTake, wordDrop, isWordChar]
  · simp [expandvars, expandAux, wordTake, wordDrop, isWordChar]

theorem setKey_map_fst {α : Type} (d : List (String × α)) (k : String) (v : α)
    (h : (getKey d k).isSome = true) :
    (setKey d k v).map Prod.fst = d.map Prod.fst := by
  induction d with
  | nil => simp [getKey] at h
  | cons kv rest ih =>
      by_cases hk : kv.1 = k
      · simp [setKey, hk]
      · simp only [getKey, hk, if_neg, if_false] at h
        simp [setKey, hk, ih h]

/-- A dot-path that does not resolve makes `setDotted` fail, naming
the full dotted key. -/
theorem setDotted_of_existsDotted_false (key : String) (v : RawValue) :
    ∀ (parts : List String) (d : RawDict), existsDotted d parts = false →
      setDotted key d parts v = Except.error ⟨key⟩ := by
  intro parts
  induction parts with
  | nil => intro d h; simp [setDotted]
  | cons seg rest ih =>
      intro d h
      cases rest with
      | nil =>
          simp only [existsDotted] at h
          simp [setDotted, h]
      | cons p2 rest2 =>
          rcases hg : getKey d seg with _ | w
          · simp [setDotted, hg]
          · cases w
            case dict sub =>
                rw [show existsDotted d (seg :: p2 :: rest2) = existsDotted sub (p2 :: rest2)
                  from by simp [existsDotted, hg]] at h
                simp only [setDotted, hg, ih sub h]
                rfl
            all_goals simp [setDotted, hg]

/-- A dot-path that resolves makes `setDotted` succeed; the result has
the same top-level keys (no key is created or removed). -/
theorem setDotted_of_existsDotted_true (key : String) (v : RawValue) :
    ∀ (parts : List String) (d : RawDict), existsDotted d parts = true →
      ∃ d2, setDotted key d parts v = Except.ok d2 ∧ d2.map Prod.fst = d.map Prod.fst := by
  intro parts
  induction parts with
  | nil => intro d h; simp [existsDotted] at h
  | cons seg rest ih =>
      intro d h
      cases rest with
      | nil =>
          simp only [existsDotted] at h
          refine ⟨setKey d seg v, ?_, setKey_map_fst d seg v h⟩
          simp [setDotted, h]
      | cons p2 rest2 =>
          rcases hg : getKey d seg with _ | w
          · rw [show existsDotted d (seg :: p2 :: rest2) = false from by
              simp [existsDotted, hg]] at h
            cases h
          · cases w
            case dict sub =>
                rw [show existsDotted d (seg :: p2 :: rest2) = existsDotted sub (p2 :: rest2)
                  from by simp [existsDotted, hg]] at h
                obtain ⟨s2, hs2, hm2⟩ := ih sub h
                refine ⟨setKey d seg (RawValue.dict s2), ?_, ?_⟩
                · simp only [setDotted, hg, hs2]
                  rfl
                · exact setKey_map_fst d seg _ (by simp [hg])
            all_goals
              rw [show existsDotted d (seg :: p2 :: rest2) = false from by
                simp [existsDotted, hg]] at h
            all_goals cases h

/-- C4 counterexample: with config `{"a": {"b": 1}}` and the override
map `{"a": 5, "a.b": 2}`, both dot-paths exist in the serialized
representation, yet applying the overrides raises
`SettingsOverrideError` for `"a.b"` — because paths are checked
against the successively-updated copy, in which `"a"` is no longer a
mapping. -/
theorem overrides_c4_counterexample :
    existsDotted [("a", RawValue.dict [("b", RawValue.int 1)])] (splitOnDot "a") = true ∧
    existsDotted [("a", RawValue.dict [("b", RawValue.int 1)])] (splitOnDot "a.b") = true ∧
    applyAll [("a", RawValue.dict [("b", RawValue.int 1)])]
        [("a", RawValue.int 5), ("a.b", RawValue.int 2)] =
      Except.error ⟨"a.b"⟩ := by
  refine ⟨by decide, by decide, ?_⟩
  simp [applyAll, setDotted, getKey, setKey,
    show splitOnDot "a" = ["a"] from rfl, show splitOnDot "a.b" = ["a", "b"] from rfl]

/-- C4 (amended): `apply_overrides` applies the overrides in map order
to the evolving serialized copy: an empty override map returns the
config object itself; otherwise the dump is threaded through the
override loop and, on success, re-validated through the schema.  Each
step whose dot-path fails to resolve in the *current* copy raises
`SettingsOverrideError` naming that path; a resolving step replaces
the value at that path, creating or removing no top-level key, and the
loop continues on the updated copy. -/
theorem overrides_c4_amended {Cfg : Type} (model_dump : Cfg → RawDict)
    (model_validate : RawDict → Cfg) (config : Cfg)
    (d : RawDict) (k : String) (v : RawValue) (rest : List (String × RawValue)) :
    apply_overrides model_dump model_validate config [] = Except.ok config ∧
    apply_overrides model_dump model_validate config ((k, v) :: rest) =
      (applyAll (model_dump config) ((k, v) :: rest)).map model_validate ∧
    (existsDotted d (splitOnDot k) = false →
      applyAll d ((k, v) :: rest) = Except.error ⟨k⟩) ∧
    (existsDotted d (splitOnDot k) = true →
      ∃ d2, setDotted k d (splitOnDot k) v = Except.ok d2 ∧
        applyAll d ((k, v) :: rest) = applyAll d2 rest ∧
        d2.map Prod.fst = d.map Prod.fst) := by
  refine ⟨rfl, rfl, ?_, ?_⟩
  · intro h
    simp [applyAll, setDotted_of_existsDotted_false k v (splitOnDot k) d h]
  · intro h
    obtain ⟨d2, hok, hmap⟩ := setDotted_of_existsDotted_true k v (splitOnDot k) d h
    exact ⟨d2, hok, by simp [applyAll, hok], hmap⟩

/-- Witness for the amended C4 at concrete inputs: an existing path is
replaced in place (no new keys), a missing path raises the error. -/
theorem overrides_c4_amended_witness :
    (existsDotted [("a", RawValue.dict [("b", RawValue.int 1)])] (splitOnDot "a.b") = true ∧
      existsDotted [("a", RawValue.int 1)] (splitOnDot "a.b") = false) ∧
    (∃ d2, setDotted "a.b" [("a", RawValue.dict [("b", RawValue.int 1)])] (splitOnDot "a.b")
          (RawValue.int 7) = Except.ok d2 ∧
        applyAll [("a", RawValue.dict [("b", RawValue.int 1)])] [("a.b", RawValue.int 7)] =
          applyAll d2 [] ∧
        d2.map Prod.fst = [("a", RawValue.dict [("b", RawValue.int 1)])].map Prod.fst) ∧
    applyAll [("a", RawValue.int 1)] [("a.b", RawValue.int 7)] = Except.error ⟨"a.b"⟩ :=
  ⟨⟨by decide, by decide⟩,
    (overrides_c4_amended (fun c : RawDict => c) (fun c => c) [("a", RawValue.int 1)]
      [("a", RawValue.dict [("b", RawValue.int 1)])] "a.b" (RawValue.int 7) []).2.2.2
      (by decide),
    (overrides_c4_amended (fun c : RawDict => c) (fun c => c) [("a", RawValue.int 1)]
      [("a", RawValue.int 1)] "a.b" (RawValue.int 7) []).2.2.1 (by decide)⟩

/-! ## C1: collected keys round-trip through dot-path lookup -/

theorem splitOnDotChars_ne_nil : ∀ l : List Char, splitOnDotChars l ≠ [] := by
  intro l
  cases l with
  | nil => simp [splitOnDotChars]
  | cons c rest =>
      simp only [splitOnDotChars]
      rcases splitOnDotChars rest with _ | ⟨seg, segs⟩
      · simp
      · by_cases hc : c = '.' <;> simp [hc]

theorem splitOnDotChars_append (xs ys : List Char) :
    splitOnDotChars (xs ++ '.' :: ys) = splitOnDotChars xs ++ splitOnDotChars ys := by
  induction xs with
  | nil =>
      rcases hs : splitOnDotChars ys with _ | ⟨seg, segs⟩
      · exact absurd hs (splitOnDotChars_ne_nil ys)
      · simp [splitOnDotChars, hs]
  | cons c xs' ih =>
      rcases hs : splitOnDotChars xs' with _ | ⟨seg, segs⟩
      · exact absurd hs (splitOnDotChars_ne_nil xs')
      · by_cases hc : c = '.' <;> simp [splitOnDotChars, ih, hs, hc]

theorem splitOnDotChars_dotfree (l : List Char) (h : ∀ c ∈ l, c ≠ '.') :
    splitOnDotChars l = [l] := by
  induction l with
  | nil => simp [splitOnDotChars]
  | cons c rest ih =>
      have hc : c ≠ '.' := h c (List.mem_cons_self _ _)
      have hrest := ih (fun c2 hm => h c2 (List.mem_cons_of_mem _ hm))
      simp [splitOnDotChars, hrest, hc]

theorem stringMk_data (k : String) : (⟨k.data⟩ : String) = k := by
  cases k
  rfl

theorem dotFreeKey_chars (k : String) (h : dotFreeKey k = true) : ∀ c ∈ k.data, c ≠ '.' := by
  rw [dotFreeKey, Bool.and_eq_true] at h
  intro c hm
  have := List.all_eq_true.mp h.2 c hm
  simpa using this

theorem dotFreeKey_ne_empty (k : String) (h : dotFreeKey k = true) : k ≠ "" := by
  rw [dotFreeKey, Bool.and_eq_true] at h
  intro he
  rw [he] at h
  simp [String.isEmpty] at h

theorem splitOnDot_single (k : String) (h : dotFreeKey k = true) : splitOnDot k = [k] := by
  rw [splitOnDot, splitOnDotChars_dotfree k.data (dotFreeKey_chars k h)]
  simp [stringMk_data]

theorem splitOnDot_append_seg (acc k2 : String) (h : dotFreeKey k2 = true) :
    splitOnDot (acc ++ "." ++ k2) = splitOnDot acc ++ [k2] := by
  have hdata : (acc ++ "." ++ k2).data = (acc.data ++ ['.']) ++ k2.data := by
    cases acc; cases k2; rfl
  rw [splitOnDot, hdata, List.append_assoc,
    show (['.'] ++ k2.data : List Char) = '.' :: k2.data from rfl,
    splitOnDotChars_append acc.data k2.data,
    splitOnDotChars_dotfree k2.data (dotFreeKey_chars k2 h)]
  simp [splitOnDot, stringMk_data]

theorem append_seg_ne_empty (acc k2 : String) : acc ++ "." ++ k2 ≠ "" := by
  intro he
  have : (acc ++ "." ++ k2).data = ("" : String).data := by rw [he]
  rw [show (acc ++ "." ++ k2).data = (acc.data ++ ['.']) ++ k2.data from by
    cases acc; cases k2; rfl] at this
  simp at this

theorem splitOnDot_foldl (p : List String) : ∀ acc : String, acc ≠ "" →
    (∀ k ∈ p, dotFreeKey k = true) →
    splitOnDot (List.foldl fullKey acc p) = splitOnDot acc ++ p := by
  induction p with
  | nil => intro acc hne hall; simp
  | cons k2 p' ih =>
      intro acc hne hall
      have hk2 := hall k2 (List.mem_cons_self _ _)
      have hfull : fullKey acc k2 = acc ++ "." ++ k2 := by simp [fullKey, hne]
      rw [List.foldl_cons, hfull,
        ih (acc ++ "." ++ k2) (append_seg_ne_empty acc k2)
          (fun x hm => hall x (List.mem_cons_of_mem _ hm)),
        splitOnDot_append_seg acc k2 hk2]
      simp

/-- The dot-paths (as segment lists) of the non-dict leaves of a
nested dict, in the traversal order of `_collect_keys`. -/
def collectPaths : RawDict → List (List String)
  | [] => []
  | (k, RawValue.dict d2) :: rest => (collectPaths d2).map (fun p => k :: p) ++ collectPaths rest
  | (k, _) :: rest => [k] :: collectPaths rest
termination_by d => sizeOf d
decreasing_by all_goals (simp_wf; try omega)

theorem collect_keys_eq_paths : ∀ (d : RawDict) (pre : String),
    collect_keys d pre = (collectPaths d).map (fun p => List.foldl fullKey pre p) := by
  intro d
  induction d using collectPaths.induct with
  | case1 => intro pre; simp [collect_keys, collectPaths]
  | case2 k d2 rest ih1 ih2 =>
      intro pre
      simp only [collect_keys, collectPaths, ih1, ih2, List.map_append, List.map_map]
      congr 1
  | case3 k v rest hnv ih =>
      intro pre
      rw [show collect_keys ((k, v) :: rest) pre = fullKey pre k :: collect_keys rest pre from by
        cases v <;> first | exact absurd rfl (hnv _) | simp [collect_keys]]
      rw [show collectPaths ((k, v) :: rest) = [k] :: collectPaths rest from by
        cases v <;> first | exact absurd rfl (hnv _) | simp [collectPaths]]
      simp [ih]

/-- The `cleanv` unpacked for a dict node. -/
theorem cleanv_dict_iff (d : RawDict) : cleanv (RawValue.dict d) = true ↔
    (d.map Prod.fst).Nodup ∧ ∀ kv ∈ d, dotFreeKey kv.1 = true ∧ cleanv kv.2 = true := by
  induction d with
  | nil => simp [cleanv]
  | cons kv rest ih =>
      obtain ⟨k, v⟩ := kv
      rw [show cleanv (RawValue.dict ((k, v) :: rest)) =
          (dotFreeKey k && cleanv v && cleanv (RawValue.dict rest) &&
            !(rest.any (fun kv2 => kv2.1 = k))) from by simp [cleanv]]
      constructor
      · intro h
        rw [Bool.and_eq_true, Bool.and_eq_true, Bool.and_eq_true] at h
        obtain ⟨⟨⟨hdf, hv⟩, hrest⟩, hany⟩ := h
        obtain ⟨hnd, hall⟩ := ih.mp hrest
        refine ⟨List.nodup_cons.mpr ⟨?_, hnd⟩, ?_⟩
        · intro hmem
          obtain ⟨kv2, hm2, he2⟩ := List.mem_map.mp hmem
          have : rest.any (fun kv2 => kv2.1 = k) = true :=
            List.any_eq_true.mpr ⟨kv2, hm2, by simp [he2]⟩
          rw [this] at hany
          simp at hany
        · intro kv2 hm2
          rcases List.mem_cons.mp hm2 with h2 | h2
          · rw [h2]; exact ⟨hdf, hv⟩
          · exact hall kv2 h2
      · intro hh
        obtain ⟨hnd, hall⟩ := hh
        obtain ⟨hk, hnd2⟩ := List.nodup_cons.mp hnd
        obtain ⟨hdf, hv⟩ := hall (k, v) (List.mem_cons_self _ _)
        have h2 : cleanv (RawValue.dict rest) = true :=
          ih.mpr ⟨hnd2, fun kv2 hm2 => hall kv2 (List.mem_cons_of_mem _ hm2)⟩
        have h3 : rest.any (fun kv2 => kv2.1 = k) = false := by
          rw [List.any_eq_false]
          intro kv2 hm2
          simp only [decide_eq_true_eq]
          intro he
          have hmm := List.mem_map_of_mem Prod.fst hm2
          rw [he] at hmm
          exact hk hmm
        rw [hdf, hv, h2, h3]
        rfl

/-- Every collected path starts with a key of the dict. -/
theorem collectPaths_head : ∀ (d : RawDict) (p : List String), p ∈ collectPaths d →
    ∃ k p2, p = k :: p2 ∧ k ∈ d.map Prod.fst := by
  intro d
  induction d using collectPaths.induct with
  | case1 => intro p hp; simp [collectPaths] at hp
  | case2 k d2 rest ih1 ih2 =>
      intro p hp
      rw [show collectPaths ((k, RawValue.dict d2) :: rest) =
          (collectPaths d2).map (fun p => k :: p) ++ collectPaths rest from by
        simp [collectPaths]] at hp
      rcases List.mem_append.mp hp with hp1 | hp2
      · obtain ⟨p2, _, hpe⟩ := List.mem_map.mp hp1
        exact ⟨k, p2, hpe.symm, by simp⟩
      · obtain ⟨k2, p2, hpe, hkm⟩ := ih2 p hp2
        exact ⟨k2, p2, hpe, by simp [List.mem_cons_of_mem, hkm]⟩
  | case3 k v rest hnv ih =>
      intro p hp
      rw [show collectPaths ((k, v) :: rest) = [k] :: collectPaths rest from by
        cases v <;> first | exact absurd rfl (hnv _) | simp [collectPaths]] at hp
      rcases List.mem_cons.mp hp with hp1 | hp2
      · exact ⟨k, [], hp1, by simp⟩
      · obtain ⟨k2, p2, hpe, hkm⟩ := ih p hp2
        exact ⟨k2, p2, hpe, by simp [List.mem_cons_of_mem, hkm]⟩

/-- Every segment of a collected path of a clean dict is a clean key. -/
theorem collectPaths_clean : ∀ (d : RawDict) (p : List String),
    cleanv (RawValue.dict d) = true → p ∈ collectPaths d →
    ∀ k ∈ p, dotFreeKey k = true := by
  intro d
  induction d using collectPaths.induct with
  | case1 => intro p _ hp; simp [collectPaths] at hp
  | case2 k d2 rest ih1 ih2 =>
      intro p hc hp
      obtain ⟨hnd, hall⟩ := (cleanv_dict_iff _).mp hc
      rw [show collectPaths ((k, RawValue.dict d2) :: rest) =
          (collectPaths d2).map (fun p => k :: p) ++ collectPaths rest from by
        simp [collectPaths]] at hp
      rcases List.mem_append.mp hp with hp1 | hp2
      · obtain ⟨p2, hp2mem, hpe⟩ := List.mem_map.mp hp1
        subst hpe
        intro k2 hk2
        rcases List.mem_cons.mp hk2 with h2 | h2
        · rw [h2]
          exact (hall (k, RawValue.dict d2) (List.mem_cons_self _ _)).1
        · exact ih1 p2 (hall (k, RawValue.dict d2) (List.mem_cons_self _ _)).2 hp2mem k2 h2
      · exact ih2 p ((cleanv_dict_iff _).mpr
          ⟨(List.nodup_cons.mp (by simpa using hnd)).2,
           fun kv hm => hall kv (List.mem_cons_of_mem _ hm)⟩) hp2
  | case3 k v rest hnv ih =>
      intro p hc hp
      obtain ⟨hnd, hall⟩ := (cleanv_dict_iff _).mp hc
      rw [show collectPaths ((k, v) :: rest) = [k] :: collectPaths rest from by
        cases v <;> first | exact absurd rfl (hnv _) | simp [collectPaths]] at hp
      rcases List.mem_cons.mp hp with hp1 | hp2
      · subst hp1
        intro k2 hk2
        rcases List.mem_cons.mp hk2 with h2 | h2
        · rw [h2]
          exact (hall (k, v) (List.mem_cons_self _ _)).1
        · simp at h2
      · exact ih p ((cleanv_dict_iff _).mpr
          ⟨(List.nodup_cons.mp (by simpa using hnd)).2,
           fun kv hm => hall kv (List.mem_cons_of_mem _ hm)⟩) hp2

theorem isEmptyDict_eq_false (v : RawValue) (h : ∀ sub, v ≠ RawValue.dict sub) :
    isEmptyDict v = false := by
  cases v <;> first | rfl | exact absurd rfl (h _)

/-- Walking a collected path of a clean dict reaches its non-dict leaf. -/
theorem walkParts_of_mem_paths : ∀ (d : RawDict) (p : List String),
    cleanv (RawValue.dict d) = true → p ∈ collectPaths d →
    ∃ v, walkParts (RawValue.dict d) p = some v ∧ (∀ sub, v ≠ RawValue.dict sub) := by
  intro d
  induction d using collectPaths.induct with
  | case1 => intro p _ hp; simp [collectPaths] at hp
  | case2 k d2 rest ih1 ih2 =>
      intro p hc hp
      obtain ⟨hnd, hall⟩ := (cleanv_dict_iff _).mp hc
      rw [show collectPaths ((k, RawValue.dict d2) :: rest) =
          (collectPaths d2).map (fun p => k :: p) ++ collectPaths rest from by
        simp [collectPaths]] at hp
      rcases List.mem_append.mp hp with hp1 | hp2
      · obtain ⟨p2, hp2mem, hpe⟩ := List.mem_map.mp hp1
        subst hpe
        rw [show walkParts (RawValue.dict ((k, RawValue.dict d2) :: rest)) (k :: p2) =
            walkParts (RawValue.dict d2) p2 from by simp [walkParts, getKey]]
        exact ih1 p2 (hall (k, RawValue.dict d2) (List.mem_cons_self _ _)).2 hp2mem
      · obtain ⟨k2, p2, hpe, hkm⟩ := collectPaths_head rest p hp2
        have hne : ¬ k = k2 := by
          intro he
          rw [List.map_cons] at hnd
          exact (List.nodup_cons.mp hnd).1 (by simpa [he] using hkm)
        subst hpe
        rw [show walkParts (RawValue.dict ((k, RawValue.dict d2) :: rest)) (k2 :: p2) =
            walkParts (RawValue.dict rest) (k2 :: p2) from by simp [walkParts, getKey, hne]]
        exact ih2 (k2 :: p2) ((cleanv_dict_iff _).mpr
          ⟨(List.nodup_cons.mp (by simpa using hnd)).2,
           fun kv hm => hall kv (List.mem_cons_of_mem _ hm)⟩) hp2
  | case3 k v rest hnv ih =>
      intro p hc hp
      obtain ⟨hnd, hall⟩ := (cleanv_dict_iff _).mp hc
      rw [show collectPaths ((k, v) :: rest) = [k] :: collectPaths rest from by
        cases v <;> first | exact absurd rfl (hnv _) | simp [collectPaths]] at hp
      rcases List.mem_cons.mp hp with hp1 | hp2
      · subst hp1
        refine ⟨v, ?_, fun sub he => hnv sub he⟩
        simp [walkParts, getKey]
      · obtain ⟨k2, p2, hpe, hkm⟩ := collectPaths_head rest p hp2
        have hne : ¬ k = k2 := by
          intro he
          rw [List.map_cons] at hnd
          exact (List.nodup_cons.mp hnd).1 (by simpa [he] using hkm)
        subst hpe
        rw [show walkParts (RawValue.dict ((k, v) :: rest)) (k2 :: p2) =
            walkParts (RawValue.dict rest) (k2 :: p2) from by simp [walkParts, getKey, hne]]
        exact ih (k2 :: p2) ((cleanv_dict_iff _).mpr
          ⟨(List.nodup_cons.mp (by simpa using hnd)).2,
           fun kv hm => hall kv (List.mem_cons_of_mem _ hm)⟩) hp2

/-- The `_get_value` finds a (non-null) value at every collected key of a
clean source. -/
theorem get_value_of_mem_paths (d : RawDict) (p : List String)
    (hc : cleand d = true) (hp : p ∈ collectPaths d) :
    (get_value d (List.foldl fullKey "" p)).isSome = true := by
  obtain ⟨k, p2, hpe, hkm⟩ := collectPaths_head d p hp
  subst hpe
  have hclean : ∀ k2 ∈ k :: p2, dotFreeKey k2 = true := collectPaths_clean d _ hc hp
  have hk := hclean k (List.mem_cons_self _ _)
  have hsplit : splitOnDot (List.foldl fullKey "" (k :: p2)) = k :: p2 := by
    rw [List.foldl_cons, show fullKey "" k = k from by simp [fullKey],
      splitOnDot_foldl p2 k (dotFreeKey_ne_empty k hk)
        (fun x hm => hclean x (List.mem_cons_of_mem _ hm)),
      splitOnDot_single k hk]
    rfl
  obtain ⟨v, hv, hnv⟩ := walkParts_of_mem_paths d (k :: p2) hc hp
  rw [get_value, hsplit, hv]
  simp [isEmptyDict_eq_false v hnv]

theorem mem_dedupKeys (l : List String) (k : String) : k ∈ dedupKeys l ↔ k ∈ l := by
  induction l with
  | nil => simp [dedupKeys]
  | cons k2 rest ih =>
      by_cases hm : k2 ∈ rest
      · rw [show dedupKeys (k2 :: rest) = dedupKeys rest from by simp [dedupKeys, hm], ih]
        constructor
        · exact fun h => List.mem_cons_of_mem _ h
        · intro h
          rcases List.mem_cons.mp h with h2 | h2
          · rw [h2]; exact hm
          · exact h2
      · rw [show dedupKeys (k2 :: rest) = k2 :: dedupKeys rest from by simp [dedupKeys, hm]]
        simp [ih]

theorem nodup_dedupKeys (l : List String) : (dedupKeys l).Nodup := by
  induction l with
  | nil => simp [dedupKeys]
  | cons k2 rest ih =>
      by_cases hm : k2 ∈ rest
      · rw [show dedupKeys (k2 :: rest) = dedupKeys rest from by simp [dedupKeys, hm]]
        exact ih
      · rw [show dedupKeys (k2 :: rest) = k2 :: dedupKeys rest from by simp [dedupKeys, hm]]
        exact List.nodup_cons.mpr ⟨fun hc => hm ((mem_dedupKeys rest k2).mp hc), ih⟩

theorem getKey_map_self {α : Type} (keys : List String) (f : String → α) (k : String)
    (h : k ∈ keys) : getKey (keys.map (fun k2 => (k2, f k2))) k = some (f k) := by
  induction keys with
  | nil => simp at h
  | cons k2 rest ih =>
      by_cases hk : k2 = k
      · subst hk
        simp [getKey]
      · rcases List.mem_cons.mp h with h2 | h2
        · exact absurd h2.symm hk
        · simp [getKey, hk, ih h2]

theorem countP_map_keys {α : Type} (keys : List String) (f : String → α) (k : String)
    (hnd : keys.Nodup) (h : k ∈ keys) :
    (keys.map (fun k2 => (k2, f k2))).countP (fun p => p.1 = k) = 1 := by
  induction keys with
  | nil => simp at h
  | cons k2 rest ih =>
      obtain ⟨hk2, hnd2⟩ := List.nodup_cons.mp hnd
      rcases List.mem_cons.mp h with h2 | h2
      · subst h2
        have hzero : (rest.map (fun k2 => (k2, f k2))).countP (fun p => p.1 = k) = 0 := by
          rw [List.countP_eq_zero]
          intro p hp
          obtain ⟨k3, hk3, hpe⟩ := List.mem_map.mp hp
          subst hpe
          simp only [decide_eq_true_eq]
          intro he
          rw [he] at hk3
          exact hk2 hk3
        simp [List.countP_cons, hzero]
      · have hne : ¬ k2 = k := fun he => hk2 (he ▸ h2)
        simp [List.countP_cons, ih hnd2 h2, hne]

/-- The `_resolve_setting` picks the highest-precedence non-null source as
the value's origin, every strictly higher source is null, and the
overrides are exactly the strictly lower non-null sources paired with
their values, in descending precedence order. -/
theorem resolve_setting_spec (pkg k : String) (cv ev uv pv dv : Option RawValue)
    (h : (cv.isSome || ev.isSome || uv.isSome || pv.isSome || dv.isSome) = true) :
    sourceVal cv ev uv pv dv (resolve_setting pkg k cv ev uv pv dv).source =
        (resolve_setting pkg k cv ev uv pv dv).value ∧
    (resolve_setting pkg k cv ev uv pv dv).value.isSome = true ∧
    (∀ s, precIdx s < precIdx (resolve_setting pkg k cv ev uv pv dv).source →
        sourceVal cv ev uv pv dv s = none) ∧
    (resolve_setting pkg k cv ev uv pv dv).overrides =
      (precList.drop (precIdx (resolve_setting pkg k cv ev uv pv dv).source + 1)).filterMap
        (fun s => (sourceVal cv ev uv pv dv s).map (fun w => (s, w))) := by
  rcases cv with _ | cv0 <;> rcases ev with _ | ev0 <;> rcases uv with _ | uv0 <;>
    rcases pv with _ | pv0 <;> rcases dv with _ | dv0
  all_goals first
    | (refine ⟨rfl, rfl, ?_, rfl⟩
       intro s hs
       cases s <;> first | rfl | exact absurd hs (by simp [resolve_setting, precIdx]))
    | simp at h

theorem get_value_isSome_of_collected (d : RawDict) (k : String)
    (hc : cleand d = true) (hm : k ∈ collect_keys d "") :
    (get_value d k).isSome = true := by
  rw [collect_keys_eq_paths] at hm
  obtain ⟨p, hp, hpe⟩ := List.mem_map.mp hm
  subst hpe
  exact get_value_of_mem_paths d p hc hp

/-- C1 (amended): for sources whose mapping keys are non-empty,
dot-free and duplicate-free at every level, every key collected from
at least one of the five sources resolves to exactly one
`ResolvedValue`; its source is the highest-precedence source holding a
non-null value for the key, every strictly higher-precedence source is
null there, and its overrides are exactly the strictly lower
non-null sources paired with their values, in descending precedence
order. -/
theorem resolver_c1_amended (pkg : String)
    (cli_args env_vars user_config project_config defaults : RawDict) (k : String)
    (hclean : cleand cli_args = true ∧ cleand env_vars = true ∧ cleand user_config = true ∧
      cleand project_config = true ∧ cleand defaults = true)
    (hk : k ∈ collect_keys cli_args "" ∨ k ∈ collect_keys env_vars "" ∨
      k ∈ collect_keys user_config "" ∨ k ∈ collect_keys project_config "" ∨
      k ∈ collect_keys defaults "") :
    ((apply_precedence pkg cli_args env_vars user_config project_config defaults).countP
        (fun p => p.1 = k) = 1) ∧
    ∃ rv, getKey (apply_precedence pkg cli_args env_vars user_config project_config defaults) k
        = some rv ∧
      sourceVal (get_value cli_args k) (get_value env_vars k) (get_value user_config k)
          (get_value project_config k) (get_value defaults k) rv.source = rv.value ∧
      rv.value.isSome = true ∧
      (∀ s, precIdx s < precIdx rv.source →
        sourceVal (get_value cli_args k) (get_value env_vars k) (get_value user_config k)
          (get_value project_config k) (get_value defaults k) s = none) ∧
      rv.overrides = (precList.drop (precIdx rv.source + 1)).filterMap
        (fun s => (sourceVal (get_value cli_args k) (get_value env_vars k)
          (get_value user_config k) (get_value project_config k) (get_value defaults k) s).map
          (fun w => (s, w))) := by
  obtain ⟨hc1, hc2, hc3, hc4, hc5⟩ := hclean
  have hmem : k ∈ all_keys cli_args env_vars user_config project_config defaults := by
    rw [all_keys, mem_dedupKeys]
    rcases hk with h | h | h | h | h <;> simp [List.mem_append, h]
  have hor : ((get_value cli_args k).isSome || (get_value env_vars k).isSome ||
      (get_value user_config k).isSome || (get_value project_config k).isSome ||
      (get_value defaults k).isSome) = true := by
    rcases hk with h | h | h | h | h
    · simp [get_value_isSome_of_collected cli_args k hc1 h]
    · simp [get_value_isSome_of_collected env_vars k hc2 h]
    · simp [get_value_isSome_of_collected user_config k hc3 h]
    · simp [get_value_isSome_of_collected project_config k hc4 h]
    · simp [get_value_isSome_of_collected defaults k hc5 h]
  constructor
  · exact countP_map_keys (all_keys cli_args env_vars user_config project_config defaults)
      (fun k2 => resolve_setting pkg k2 (get_value cli_args k2) (get_value env_vars k2)
        (get_value user_config k2) (get_value project_config k2) (get_value defaults k2))
      k (nodup_dedupKeys _) hmem
  · refine ⟨resolve_setting pkg k (get_value cli_args k) (get_value env_vars k)
      (get_value user_config k) (get_value project_config k) (get_value defaults k), ?_, ?_⟩
    · exact getKey_map_self (all_keys cli_args env_vars user_config project_config defaults)
        (fun k2 => resolve_setting pkg k2 (get_value cli_args k2) (get_value env_vars k2)
          (get_value user_config k2) (get_value project_config k2) (get_value defaults k2))
        k hmem
    · exact resolve_setting_spec pkg k (get_value cli_args k) (get_value env_vars k)
        (get_value user_config k) (get_value project_config k) (get_value defaults k) hor

/-- Witness for the amended C1: a key held only by the user config
resolves once, to the user value, with empty overrides. -/
theorem resolver_c1_amended_witness :
    ((cleand [] = true ∧ cleand [] = true ∧
        cleand [("backend", RawValue.str "pywal")] = true ∧
        cleand [] = true ∧ cleand [] = true) ∧
      ("backend" ∈ collect_keys ([] : RawDict) "" ∨
        "backend" ∈ collect_keys ([] : RawDict) "" ∨
        "backend" ∈ collect_keys [("backend", RawValue.str "pywal")] "" ∨
        "backend" ∈ collect_keys ([] : RawDict) "" ∨
        "backend" ∈ collect_keys ([] : RawDict) "")) ∧
    (((apply_precedence "p" [] [] [("backend", RawValue.str "pywal")] [] []).countP
        (fun p => p.1 = "backend") = 1) ∧
      ∃ rv, getKey (apply_precedence "p" [] [] [("backend", RawValue.str "pywal")] [] [])
          "backend" = some rv ∧
        sourceVal (get_value [] "backend") (get_value [] "backend")
            (get_value [("backend", RawValue.str "pywal")] "backend")
            (get_value [] "backend") (get_value [] "backend") rv.source = rv.value ∧
        rv.value.isSome = true ∧
        (∀ s, precIdx s < precIdx rv.source →
          sourceVal (get_value [] "backend") (get_value [] "backend")
            (get_value [("backend", RawValue.str "pywal")] "backend")
            (get_value [] "backend") (get_value [] "backend") s = none) ∧
        rv.overrides = (precList.drop (precIdx rv.source + 1)).filterMap
          (fun s => (sourceVal (get_value [] "backend") (get_value [] "backend")
            (get_value [("backend", RawValue.str "pywal")] "backend")
            (get_value [] "backend") (get_value [] "backend") s).map (fun w => (s, w)))) :=
  ⟨⟨by simp [cleand, cleanv, dotFreeKey, show "backend".isEmpty = false from rfl],
    by right; right; left; simp [collect_keys, fullKey]⟩,
   resolver_c1_amended "p" [] [] [("backend", RawValue.str "pywal")] [] [] "backend"
     (by simp [cleand, cleanv, dotFreeKey, show "backend".isEmpty = false from rfl])
     (by right; right; left; simp [collect_keys, fullKey])⟩
